import Mathlib

/-!
Shallow embedding of `ocr_legal.py` (an OCR tool for scanned legal documents)
and proofs of the specification's claims about it.

Strings are modelled as `List Char`.  External collaborators (PIL image
decoding, pytesseract, the filesystem) are modelled as an explicit environment
of fallible functions (`Except`-returning), and the observable calls the
pipeline makes to them are recorded as an event trace.
-/

namespace OcrLegal

/-! ## Text normalization (`clean_text`, ocr_legal.py lines 38-54) -/

/-- Whitespace predicate of Python's `str.strip()` / `str.isspace()`:
ASCII whitespace `\t \n \v \f \r ' '`, the ASCII separators `\x1c`-`\x1f`,
and the Unicode whitespace code points. -/
def isPySpace (c : Char) : Bool :=
  c = ' ' || c = '\t' || c = '\n' || c = '\x0b' || c = '\x0c' || c = '\r' ||
  c = '\x1c' || c = '\x1d' || c = '\x1e' || c = '\x1f' ||
  c = '\x85' || c = '\xa0' || c = ' ' ||
  (0x2000 ≤ c.toNat && c.toNat ≤ 0x200a) ||
  c = ' ' || c = ' ' || c = ' ' || c = ' ' || c = '　'

/-- `re.sub(r' +', ' ', text)` (line 45): every maximal run of space
characters becomes a single space.  Implemented by deleting a space whose
successor is also a space, which keeps exactly one space per run. -/
def collapseSpaces : List Char → List Char
  | [] => []
  | [c] => [c]
  | c1 :: c2 :: rest =>
    if c1 = ' ' ∧ c2 = ' ' then collapseSpaces (c2 :: rest)
    else c1 :: collapseSpaces (c2 :: rest)

/-- `re.sub(r'\n{3,}', '\n\n', text)` (line 48): every maximal run of three
or more newlines becomes exactly two newlines; runs of one or two newlines
are unchanged.  Implemented by deleting a newline followed by at least two
more newlines, which truncates every run at two. -/
def collapseNewlines : List Char → List Char
  | [] => []
  | c :: rest =>
    if c = '\n' ∧ rest.take 2 = ['\n', '\n'] then collapseNewlines rest
    else c :: collapseNewlines rest

/-- Python `s.split(sep)` for a one-character separator: the segments
between separator occurrences, including empty first/last/intermediate
segments. -/
def splitChar (sep : Char) : List Char → List (List Char)
  | [] => [[]]
  | c :: rest =>
    if c = sep then [] :: splitChar sep rest
    else
      let r := splitChar sep rest
      (c :: r.headD []) :: r.tail

/-- Python `text.split('\n')` (line 51). -/
def splitNl (l : List Char) : List (List Char) := splitChar '\n' l

/-- Python `'\n'.join(lines)` (line 52). -/
def joinNl : List (List Char) → List Char
  | [] => []
  | [l] => l
  | l :: ls => l ++ '\n' :: joinNl ls

/-- Python `s.strip()` with no argument: drop leading and trailing
whitespace characters. -/
def pyStrip (l : List Char) : List Char :=
  ((l.dropWhile isPySpace).reverse.dropWhile isPySpace).reverse

/-- `clean_text` (lines 38-54): collapse space runs, collapse newline runs
of length ≥ 3 to two, strip every line, rejoin, and strip the whole. -/
def clean_text (text : List Char) : List Char :=
  let t1 := collapseSpaces text
  let t2 := collapseNewlines t1
  let lines := (splitNl t2).map pyStrip
  let t3 := joinNl lines
  pyStrip t3

/-- The line statistic printed at line 121:
`len([l for l in text.split('\n') if l.strip()])` — the number of lines of the
normalized text whose stripped form is non-empty (truthy). -/
def lineStat (text : List Char) : Nat :=
  ((splitNl text).filter (fun l => !(pyStrip l).isEmpty)).length

/-! ## Image preprocessing (`preprocess_image`, lines 16-35)

A `RasterImage` models a PIL image: a mode string, dimensions, and a pixel
grid (each pixel a list of channel samples).  The three PIL operations used
by the source are modelled pointwise from their documented behaviour. -/

structure RasterImage where
  mode : String
  width : Nat
  height : Nat
  px : Nat → Nat → List Nat

/-- ITU-R 601-2 luma transform used by PIL `convert('L')` for RGB input;
single-channel input is returned as is. -/
def lumaOf (p : List Nat) : Nat :=
  match p with
  | [] => 0
  | [v] => v
  | [v, _] => v
  | r :: g :: b :: _ => (299 * r + 587 * g + 114 * b) / 1000

/-- PIL `img.convert('L')` (line 22): single-channel greyscale image of the
same dimensions. -/
def convertL (img : RasterImage) : RasterImage :=
  { mode := "L", width := img.width, height := img.height,
    px := fun x y => [lumaOf (img.px x y)] }

/-- First channel of a pixel as an integer. -/
def pxL (img : RasterImage) (x y : Nat) : Int :=
  ((img.px x y).headD 0 : Nat)

/-- Clamp an integer sample into the 8-bit range. -/
def clamp255 (z : Int) : Nat := min z.toNat 255

/-- Sum of the (first channel of the) pixel grid. -/
def gridSum (img : RasterImage) : Nat :=
  ((List.range img.height).map fun y =>
    ((List.range img.width).map fun x => (img.px x y).headD 0).sum).sum

/-- The rounded mean grey value used by PIL `ImageEnhance.Contrast`
(`int(mean + 0.5)`, i.e. round half up). -/
def imageMean (img : RasterImage) : Nat :=
  let n := img.width * img.height
  (2 * gridSum img + n) / (2 * n)

/-- `ImageEnhance.Contrast(img).enhance(2.0)` (lines 25-26): PIL blends the
constant mean image `deg` with the image at factor 2, i.e. pointwise
`deg + 2*(p - deg) = 2*p - mean`, clamped to 0..255.  Mode and dimensions
are unchanged. -/
def enhanceContrast2 (img : RasterImage) : RasterImage :=
  let m : Int := imageMean img
  { mode := img.mode, width := img.width, height := img.height,
    px := fun x y => [clamp255 (2 * pxL img x y - m)] }

/-- `img.filter(ImageFilter.SHARPEN)` (line 29): a fixed 3×3 convolution
(kernel `-2` everywhere, `32` at the centre, scale 16).  PIL returns a copy
when the image is smaller than the kernel, and copies border pixels;
interior pixels get the (integer-division) kernel result clamped to 0..255.
Mode and dimensions are unchanged. -/
def filterSharpen (img : RasterImage) : RasterImage :=
  if img.width < 3 ∨ img.height < 3 then img
  else
    { mode := img.mode, width := img.width, height := img.height,
      px := fun x y =>
        if x = 0 ∨ y = 0 ∨ x + 1 = img.width ∨ y + 1 = img.height ∨
            img.width ≤ x ∨ img.height ≤ y then img.px x y
        else
          let s := pxL img (x-1) (y-1) + pxL img x (y-1) + pxL img (x+1) (y-1) +
                   pxL img (x-1) y + pxL img (x+1) y +
                   pxL img (x-1) (y+1) + pxL img x (y+1) + pxL img (x+1) (y+1)
          [clamp255 ((32 * pxL img x y - 2 * s) / 16)] }

/-- `preprocess_image` (lines 16-35): greyscale conversion, then contrast
enhancement with factor 2.0, then sharpening. -/
def preprocess_image (img : RasterImage) : RasterImage :=
  filterSharpen (enhanceContrast2 (convertL img))

/-! ## The document pipeline and batch orchestration (lines 57-251)

External effects are an explicit environment; each fallible call returns
`Except PyError`.  An uncaught `.error` models an uncaught Python
exception.  The observable side-effect calls are recorded as events. -/

/-- The error kinds of the external collaborators (decode failure of
`Image.open`, failure of `pytesseract.image_to_string`, failure of a
filesystem write). -/
inductive PyError
  | decodeError
  | engineError
  | writeError
  deriving DecidableEq, Repr

/-- Observable side-effect calls made by the pipeline. -/
inductive Ev
  | savePre (path : String)
  | recognize (lang : String) (config : String)
  | saveTxt (path : String)
  | saveMd (path : String)
  deriving DecidableEq, Repr

/-- The environment of external collaborators. -/
structure Env where
  /-- `Image.open(path)` -/
  openImage : String → Except PyError RasterImage
  /-- `pytesseract.image_to_string(img, lang=..., config=...)` -/
  imageToString : RasterImage → String → String → Except PyError (List Char)
  /-- `img.save(path)` -/
  saveImage : String → RasterImage → Except PyError Unit
  /-- `Path(p).write_text(content)` -/
  writeText : String → String → Except PyError Unit
  /-- `Path(dir).glob(pattern)` -/
  glob : String → String → List String
  /-- `Path(p).exists()` -/
  pathExists : String → Bool
  /-- `Path(p).is_dir()` -/
  isDir : String → Bool
  /-- `time.strftime('%Y-%m-%d %H:%M:%S')` -/
  now : String

/-- `Path(p).name`: the final `/`-separated path component. -/
def pathName (p : String) : String :=
  String.mk ((splitChar '/' p.toList).getLastD p.toList)

/-- `Path(p).stem`: the final path component without its last extension
(a name that is only an extension, like `.bashrc`, keeps itself). -/
def pathStem (p : String) : String :=
  let n := pathName p
  let pre := ((n.toList.reverse.dropWhile (fun c => c ≠ '.')).drop 1).reverse
  if pre.isEmpty then n else String.mk pre

/-- `custom_config = r'--oem 3 --psm 6'` (line 99). -/
def custom_config : String := "--oem 3 --psm 6"

/-- The fixed language hint passed to the engine (line 111). -/
def tessLang : String := "spa+eng"

/-- The path of the persisted preprocessed image
(`output / f"{stem}_preprocessed.png"`, line 92). -/
def preprocessedPath (imagePath : String) : String :=
  "output/" ++ pathStem imagePath ++ "_preprocessed.png"

/-- `ocr_documento_legal` (lines 57-134): decode, optionally preprocess
(optionally persisting the preprocessed image — unguarded, so a write
failure propagates), recognize with the fixed configuration, normalize.
Returns the result together with the trace of side-effect calls made.
The statistics at lines 121-131 are print-only and not returned, exactly
as in the source. -/
def ocr_documento_legal (env : Env) (imagePath : String)
    (preprocess : Bool) (savePreprocessed : Bool) :
    Except PyError (List Char) × List Ev :=
  match env.openImage imagePath with
  | .error e => (.error e, [])
  | .ok img =>
    let step : Except PyError RasterImage × List Ev :=
      if preprocess then
        let imgProcessed := preprocess_image img
        if savePreprocessed then
          (match env.saveImage (preprocessedPath imagePath) imgProcessed with
           | .error e => Except.error e
           | .ok _ => Except.ok imgProcessed,
           [Ev.savePre (preprocessedPath imagePath)])
        else (Except.ok imgProcessed, [])
      else (Except.ok img, [])
    match step with
    | (.error e, evs) => (.error e, evs)
    | (.ok imgProcessed, evs) =>
      match env.imageToString imgProcessed tessLang custom_config with
      | .error e => (.error e, evs ++ [Ev.recognize tessLang custom_config])
      | .ok raw =>
        (.ok (clean_text raw), evs ++ [Ev.recognize tessLang custom_config])

/-- `save_results` (lines 137-162): write `output/<stem>.txt`, and when
metadata is requested also `output/<stem>.md` with the fixed template. -/
def save_results (env : Env) (text : List Char) (imagePath : String)
    (includeMetadata : Bool) : Except PyError Unit × List Ev :=
  let baseName := pathStem imagePath
  let txtFile := "output/" ++ baseName ++ ".txt"
  match env.writeText txtFile (String.mk text) with
  | .error e => (.error e, [Ev.saveTxt txtFile])
  | .ok _ =>
    if includeMetadata then
      let mdFile := "output/" ++ baseName ++ ".md"
      let mdContent :=
        "# Documento: " ++ baseName ++ "\n\n**Fuente:** `" ++
        pathName imagePath ++ "`  \n**Fecha de procesamiento:** " ++ env.now ++
        "\n\n---\n\n" ++ String.mk text ++ "\n"
      match env.writeText mdFile mdContent with
      | .error e => (.error e, [Ev.saveTxt txtFile, Ev.saveMd mdFile])
      | .ok _ => (.ok (), [Ev.saveTxt txtFile, Ev.saveMd mdFile])
    else (.ok (), [Ev.saveTxt txtFile])

/-- The per-document outcome of one iteration of the batch loop. -/
inductive DocOutcome
  | success (text : List Char)
  | failure (e : PyError)
  deriving DecidableEq, Repr

/-- Whether an outcome is a failure record. -/
def DocOutcome.isFailure : DocOutcome → Bool
  | .failure _ => true
  | .success _ => false

/-- One iteration of the batch loop body (lines 188-194): run the pipeline
(note: `save_preprocessed` is not passed, so it defaults to `False`) and
persist the result; `except Exception` turns any error into a failure
record instead of propagating it. -/
def runDocument (env : Env) (imagePath : String) (preprocess : Bool) :
    DocOutcome × List Ev :=
  match ocr_documento_legal env imagePath preprocess false with
  | (.error e, evs) => (.failure e, evs)
  | (.ok text, evs) =>
    match save_results env text imagePath true with
    | (.error e, evs2) => (.failure e, evs ++ evs2)
    | (.ok _, evs2) => (.success text, evs ++ evs2)

/-- The `for` loop of `process_batch` (lines 184-194), which continues to
the next file after any per-document failure. -/
def batchLoop (env : Env) (preprocess : Bool) :
    List String → List DocOutcome × List Ev
  | [] => ([], [])
  | p :: rest =>
    let r := runDocument env p preprocess
    let rs := batchLoop env preprocess rest
    (r.1 :: rs.1, r.2 ++ rs.2)

/-- The fixed extension filter of batch discovery (line 170). -/
def extensions : List String := ["*.png", "*.jpg", "*.jpeg", "*.tiff", "*.bmp"]

/-- Discovery (lines 171-173): the concatenation of the glob results of the
five patterns, in that order. -/
def globImages (env : Env) (inputDir : String) : List String :=
  extensions.foldl (fun acc ext => acc ++ env.glob inputDir ext) []

/-- The observable result of `process_batch`: whether it took the empty
early-return branch (lines 175-177, an advisory console message, no
exception), the per-document outcomes, and the event trace. -/
structure BatchResult where
  noInput : Bool
  outcomes : List DocOutcome
  events : List Ev
  deriving DecidableEq, Repr

/-- `process_batch` (lines 165-203).  With no discovered images it returns
early (advisory, no error); otherwise it runs the loop over all discovered
files.  The timing prints at lines 196-203 are print-only. -/
def process_batch (env : Env) (inputDir : String) (preprocess : Bool) :
    BatchResult :=
  let images := globImages env inputDir
  if images.isEmpty then { noInput := true, outcomes := [], events := [] }
  else
    let r := batchLoop env preprocess images
    { noInput := false, outcomes := r.1, events := r.2 }

/-- The observable result of `main`: the process exit status, the batch
result when the directory branch ran, and the event trace. -/
structure MainResult where
  exitCode : Nat
  batch : Option BatchResult
  events : List Ev
  deriving DecidableEq, Repr

/-- `main` (lines 206-246).  `args` models `sys.argv` (program name first).
Missing argument or missing path exit with status 1; the directory branch
runs `process_batch` (never passing `save_preprocessed`) and falls off the
end (exit 0); the file branch propagates any error (uncaught exception,
modelled as exit status 1). -/
def main (env : Env) (args : List String) : MainResult :=
  if args.length < 2 then { exitCode := 1, batch := none, events := [] }
  else
    let path := args.getD 1 ""
    let preprocess := !(args.contains "--no-prep")
    let savePreprocessed := args.contains "--save-prep"
    if !(env.pathExists path) then { exitCode := 1, batch := none, events := [] }
    else if env.isDir path then
      let b := process_batch env path preprocess
      { exitCode := 0, batch := some b, events := b.events }
    else
      match ocr_documento_legal env path preprocess savePreprocessed with
      | (.error _, evs) => { exitCode := 1, batch := none, events := evs }
      | (.ok text, evs) =>
        match save_results env text path true with
        | (.error _, evs2) =>
          { exitCode := 1, batch := none, events := evs ++ evs2 }
        | (.ok _, evs2) =>
          { exitCode := 0, batch := none, events := evs ++ evs2 }

/-! ## Concrete sample environments, used to instantiate the theorems -/

/-- A small concrete RGB raster. -/
def imgSample : RasterImage :=
  { mode := "RGB", width := 4, height := 3, px := fun _ _ => [10, 20, 30] }

/-- An environment in which every external call succeeds and the input
directory holds one PNG file. -/
def envOk : Env :=
  { openImage := fun _ => .ok imgSample
    imageToString := fun _ _ _ => .ok "hola  mundo".toList
    saveImage := fun _ _ => .ok ()
    writeText := fun _ _ => .ok ()
    glob := fun _ ext => if ext = "*.png" then ["input/a.png"] else []
    pathExists := fun _ => true
    isDir := fun p => p = "input"
    now := "2026-01-01 00:00:00" }

/-- `envOk`, except that every image write fails. -/
def envSaveFails : Env :=
  { envOk with saveImage := fun _ _ => .error .writeError }

/-- `envOk`, except that the directory holds three PNG files of which the
middle one fails to decode. -/
def envBFails : Env :=
  { envOk with
    openImage := fun p =>
      if p = "input/b.png" then .error .decodeError else .ok imgSample
    glob := fun _ ext =>
      if ext = "*.png" then ["input/a.png", "input/b.png", "input/c.png"]
      else [] }

/-- `envOk`, except that the directory holds no matching files at all. -/
def envEmptyDir : Env :=
  { envOk with glob := fun _ _ => [] }

/-! ## Helper lemmas -/

/-! ### Structure of `splitChar` and `joinNl` -/

theorem splitChar_nil (sep : Char) : splitChar sep [] = [[]] := rfl

theorem splitChar_cons_sep (sep : Char) (r : List Char) :
    splitChar sep (sep :: r) = [] :: splitChar sep r := by
  simp [splitChar]

theorem splitChar_cons_ne (sep c : Char) (r : List Char) (h : c ≠ sep) :
    splitChar sep (c :: r) =
      (c :: (splitChar sep r).headD []) :: (splitChar sep r).tail := by
  simp [splitChar, h]

theorem splitChar_ne_nil (sep : Char) (l : List Char) :
    splitChar sep l ≠ [] := by
  cases l with
  | nil => simp [splitChar]
  | cons c r =>
    by_cases h : c = sep
    · subst h; simp [splitChar_cons_sep]
    · simp [splitChar_cons_ne sep c r h]

theorem headD_cons_tail {α : Type} (l : List α) (d : α) (h : l ≠ []) :
    l.headD d :: l.tail = l := by
  cases l with
  | nil => exact absurd rfl h
  | cons a as => rfl

/-- Splitting an append: the last segment of `a` glues onto the first
segment of `b`. -/
theorem splitChar_append (sep : Char) (a b : List Char) :
    splitChar sep (a ++ b) =
      (splitChar sep a).dropLast ++
        ((splitChar sep a).getLastD [] ++ (splitChar sep b).headD []) ::
          (splitChar sep b).tail := by
  induction a with
  | nil =>
    simp only [List.nil_append, splitChar_nil]
    have h1 : ([[]] : List (List Char)).dropLast = [] := rfl
    have h2 : ([[]] : List (List Char)).getLastD [] = [] := rfl
    rw [h1, h2, List.nil_append, List.nil_append]
    exact (headD_cons_tail _ _ (splitChar_ne_nil sep b)).symm
  | cons c a' ih =>
    by_cases h : c = sep
    · rw [List.cons_append, h, splitChar_cons_sep, splitChar_cons_sep, ih]
      rcases hY : splitChar sep a' with _ | ⟨y0, Y'⟩
      · exact absurd hY (splitChar_ne_nil sep a')
      · cases Y' <;> simp
    · rw [List.cons_append, splitChar_cons_ne sep c _ h,
        splitChar_cons_ne sep c a' h, ih]
      rcases hY : splitChar sep a' with _ | ⟨y0, Y'⟩
      · exact absurd hY (splitChar_ne_nil sep a')
      · cases Y' <;> simp

/-- Splitting at an explicit separator. -/
theorem splitChar_append_sep (sep : Char) (a b : List Char) :
    splitChar sep (a ++ sep :: b) =
      (splitChar sep a).dropLast ++
        (splitChar sep a).getLastD [] :: splitChar sep b := by
  rw [splitChar_append, splitChar_cons_sep]
  simp

/-- Splitting after appending one non-separator character. -/
theorem splitChar_append_single (sep c : Char) (a : List Char) (h : c ≠ sep) :
    splitChar sep (a ++ [c]) =
      (splitChar sep a).dropLast ++
        [(splitChar sep a).getLastD [] ++ [c]] := by
  rw [splitChar_append, splitChar_cons_ne sep c [] h]
  simp [splitChar_nil]

theorem mem_splitChar_not_sep (sep : Char) (l : List Char) (m : List Char)
    (hm : m ∈ splitChar sep l) : sep ∉ m := by
  induction l generalizing m with
  | nil =>
    simp [splitChar_nil] at hm
    subst hm
    simp
  | cons c r ih =>
    by_cases h : c = sep
    · subst h
      rw [splitChar_cons_sep] at hm
      rcases List.mem_cons.mp hm with hm | hm
      · subst hm; simp
      · exact ih m hm
    · rw [splitChar_cons_ne sep c r h] at hm
      have hne := splitChar_ne_nil sep r
      rcases List.mem_cons.mp hm with hm | hm
      · subst hm
        have hhead : (splitChar sep r).headD [] ∈ splitChar sep r := by
          rcases hY : splitChar sep r with _ | ⟨y0, Y'⟩
          · exact absurd hY hne
          · simp
        intro hc
        rcases List.mem_cons.mp hc with hc | hc
        · exact h hc.symm
        · exact ih _ hhead hc
      · have htail : m ∈ splitChar sep r := by
          rcases hY : splitChar sep r with _ | ⟨y0, Y'⟩
          · exact absurd hY hne
          · rw [hY] at hm
            exact List.mem_cons_of_mem _ hm
        exact ih m htail

theorem splitChar_single_of_not_mem (sep : Char) (l : List Char)
    (h : sep ∉ l) : splitChar sep l = [l] := by
  induction l with
  | nil => rfl
  | cons c r ih =>
    have hc : c ≠ sep := fun hcc => h (hcc ▸ List.mem_cons_self c r)
    rw [splitChar_cons_ne sep c r hc,
      ih (fun hr => h (List.mem_cons_of_mem c hr))]
    rfl

/-- Joining the split segments restores the original string. -/
theorem joinNl_splitNl (t : List Char) : joinNl (splitNl t) = t := by
  induction t with
  | nil => rfl
  | cons c r ih =>
    unfold splitNl at *
    by_cases h : c = '\n'
    · subst h
      rw [splitChar_cons_sep]
      have hne := splitChar_ne_nil '\n' r
      rcases hY : splitChar '\n' r with _ | ⟨y0, Y'⟩
      · exact absurd hY hne
      · rw [hY] at ih
        simpa [joinNl] using ih
    · rw [splitChar_cons_ne '\n' c r h]
      have hne := splitChar_ne_nil '\n' r
      rcases hY : splitChar '\n' r with _ | ⟨y0, Y'⟩
      · exact absurd hY hne
      · rw [hY] at ih
        cases Y' with
        | nil => simpa [joinNl] using congrArg (c :: ·) ih
        | cons y1 Y'' => simpa [joinNl] using congrArg (c :: ·) ih

/-- Splitting a join of newline-free segments restores the segments. -/
theorem splitNl_joinNl (ls : List (List Char)) (hfree : ∀ m ∈ ls, '\n' ∉ m)
    (hne : ls ≠ []) : splitNl (joinNl ls) = ls := by
  induction ls with
  | nil => exact absurd rfl hne
  | cons l ls' ih =>
    cases ls' with
    | nil =>
      show splitChar '\n' (joinNl [l]) = [l]
      exact splitChar_single_of_not_mem '\n' l (hfree l (by simp))
    | cons l2 ls'' =>
      show splitChar '\n' (l ++ '\n' :: joinNl (l2 :: ls'')) = _
      rw [splitChar_append_sep,
        splitChar_single_of_not_mem '\n' l (hfree l (by simp))]
      have := ih (fun m hm => hfree m (List.mem_cons_of_mem l hm)) (by simp)
      simpa [splitNl] using congrArg (l :: ·) this

/-- `joinNl` of an append of non-empty lists. -/
theorem joinNl_append : ∀ (as bs : List (List Char)), as ≠ [] → bs ≠ [] →
    joinNl (as ++ bs) = joinNl as ++ '\n' :: joinNl bs
  | [], _, ha, _ => absurd rfl ha
  | [a], bs, _, hb => by
    cases bs with
    | nil => exact absurd rfl hb
    | cons b bs' => simp [joinNl]
  | a :: a2 :: as'', bs, _, hb => by
    have ih := joinNl_append (a2 :: as'') bs (by simp) hb
    have h1 : joinNl (a :: ((a2 :: as'') ++ bs)) =
        a ++ '\n' :: joinNl ((a2 :: as'') ++ bs) := by
      cases hmid : (a2 :: as'') ++ bs with
      | nil => simp at hmid
      | cons m ms => rfl
    show joinNl (a :: ((a2 :: as'') ++ bs)) = _
    rw [h1, ih]
    simp [joinNl]

/-! ### Structure of `pyStrip` -/

theorem head?_dropWhile (p : Char → Bool) (l : List Char) (c : Char)
    (h : (l.dropWhile p).head? = some c) : p c = false := by
  have hm := List.head?_dropWhile_not p l
  rw [h] at hm
  exact hm

/-- A non-matching element stops `dropWhile` at the boundary of an
append. -/
theorem dropWhile_append_stopper (p : Char → Bool) (a : List Char) (x : Char)
    (r : List Char) (hx : p x = false) :
    (a ++ x :: r).dropWhile p = a.dropWhile p ++ x :: r := by
  induction a with
  | nil => simp [List.dropWhile_cons, hx]
  | cons c a' ih =>
    by_cases hc : p c
    · simp [List.dropWhile_cons, hc, ih]
    · simp [List.dropWhile_cons, hc]

theorem pyStrip_prefixOf (l : List Char) :
    pyStrip l <+: List.dropWhile isPySpace l := by
  unfold pyStrip
  have h2 := List.dropWhile_suffix
    (l := (List.dropWhile isPySpace l).reverse) isPySpace
  have h3 := List.reverse_prefix.mpr h2
  simpa using h3

theorem pyStrip_infixOf (l : List Char) : pyStrip l <:+: l := by
  exact (pyStrip_prefixOf l).isInfix.trans
    (List.dropWhile_suffix isPySpace).isInfix

/-- A string is fixed by `strip` exactly when its first and last
characters are not whitespace. -/
theorem pyStrip_eq_self_iff (l : List Char) :
    pyStrip l = l ↔
      (∀ c, l.head? = some c → isPySpace c = false) ∧
      (∀ c, l.getLast? = some c → isPySpace c = false) := by
  constructor
  · intro h
    have hX : List.dropWhile isPySpace l = l := by
      refine (List.dropWhile_suffix isPySpace).eq_of_length ?_
      have h1 := congrArg List.length h
      unfold pyStrip at h1
      simp only [List.length_reverse] at h1
      have h2 := (List.dropWhile_suffix
        (l := (List.dropWhile isPySpace l).reverse) isPySpace).length_le
      simp only [List.length_reverse] at h2
      have h3 := (List.dropWhile_suffix (l := l) isPySpace).length_le
      omega
    refine ⟨fun c hc => head?_dropWhile isPySpace l c (by rw [hX]; exact hc),
      fun c hc => ?_⟩
    have h4 : List.dropWhile isPySpace l.reverse = l.reverse := by
      have h5 : (List.dropWhile isPySpace l.reverse).reverse = l := by
        have h6 := h
        unfold pyStrip at h6
        rw [hX] at h6
        exact h6
      calc List.dropWhile isPySpace l.reverse
          = ((List.dropWhile isPySpace l.reverse).reverse).reverse := by simp
        _ = l.reverse := by rw [h5]
    refine head?_dropWhile isPySpace l.reverse c ?_
    rw [h4, List.head?_reverse]
    exact hc
  · rintro ⟨hh, hl⟩
    have hX : List.dropWhile isPySpace l = l := by
      cases l with
      | nil => rfl
      | cons a r => rw [List.dropWhile_cons, if_neg (by simp [hh a rfl])]
    unfold pyStrip
    rw [hX]
    have h4 : List.dropWhile isPySpace l.reverse = l.reverse := by
      cases hrev : l.reverse with
      | nil => rfl
      | cons a r =>
        have ha : l.getLast? = some a := by
          rw [← List.head?_reverse, hrev]
          rfl
        rw [List.dropWhile_cons, if_neg (by simp [hl a ha])]
    rw [h4, List.reverse_reverse]

theorem prefix_head?_eq {α : Type} {s t : List α} (h : s <+: t) {c : α}
    (hc : s.head? = some c) : t.head? = some c := by
  obtain ⟨u, rfl⟩ := h
  cases s with
  | nil => simp at hc
  | cons a r => simpa using hc

/-- `strip` is idempotent. -/
theorem pyStrip_pyStrip (l : List Char) : pyStrip (pyStrip l) = pyStrip l := by
  rw [pyStrip_eq_self_iff]
  refine ⟨fun c hc => ?_, fun c hc => ?_⟩
  · exact head?_dropWhile isPySpace l c (prefix_head?_eq (pyStrip_prefixOf l) hc)
  · unfold pyStrip at hc
    rw [List.getLast?_reverse] at hc
    exact head?_dropWhile isPySpace _ c hc

/-- Stripping a string that ends in a non-whitespace character only strips
on the left. -/
theorem pyStrip_append_nonspace (m : List Char) (x : Char)
    (hx : isPySpace x = false) :
    pyStrip (m ++ [x]) = m.dropWhile isPySpace ++ [x] := by
  unfold pyStrip
  rw [dropWhile_append_stopper isPySpace m x [] hx]
  simp [List.dropWhile_cons, hx]

/-- Stripping a string that starts with a non-whitespace character keeps
that character in front. -/
theorem pyStrip_cons_nonspace (y : Char) (q : List Char)
    (hy : isPySpace y = false) :
    pyStrip (y :: q) =
      y :: (List.dropWhile isPySpace q.reverse).reverse := by
  unfold pyStrip
  rw [List.dropWhile_cons, if_neg (by simp [hy]), List.reverse_cons,
    dropWhile_append_stopper isPySpace q.reverse y [] hy]
  simp

/-- Stripping preserves an interior segment delimited by non-whitespace
characters. -/
theorem pyStrip_keeps_segment (s t2 mid : List Char) (x y : Char)
    (hx : isPySpace x = false) (hy : isPySpace y = false) :
    pyStrip (s ++ (x :: (mid ++ [y])) ++ t2) =
      List.dropWhile isPySpace s ++ (x :: (mid ++ [y])) ++
        (List.dropWhile isPySpace t2.reverse).reverse := by
  unfold pyStrip
  rw [show s ++ (x :: (mid ++ [y])) ++ t2 =
    s ++ x :: ((mid ++ [y]) ++ t2) from by simp]
  rw [dropWhile_append_stopper isPySpace s x _ hx]
  rw [show (List.dropWhile isPySpace s ++
      x :: (mid ++ [y] ++ t2)).reverse =
    t2.reverse ++ y :: (mid.reverse ++
      x :: (List.dropWhile isPySpace s).reverse) from by simp]
  rw [dropWhile_append_stopper isPySpace t2.reverse y _ hy]
  simp

/-! ### Structure of `collapseSpaces` -/

theorem collapseSpaces_nil : collapseSpaces [] = [] := rfl

theorem collapseSpaces_cons_cons_drop (c1 c2 : Char) (r : List Char)
    (h : c1 = ' ' ∧ c2 = ' ') :
    collapseSpaces (c1 :: c2 :: r) = collapseSpaces (c2 :: r) := by
  simp [collapseSpaces, h]

theorem collapseSpaces_cons_cons_keep (c1 c2 : Char) (r : List Char)
    (h : ¬(c1 = ' ' ∧ c2 = ' ')) :
    collapseSpaces (c1 :: c2 :: r) = c1 :: collapseSpaces (c2 :: r) := by
  simp [collapseSpaces, h]

theorem collapseSpaces_head? : ∀ (c : Char) (r : List Char),
    (collapseSpaces (c :: r)).head? = some c
  | _, [] => rfl
  | c1, c2 :: rest => by
    by_cases h : c1 = ' ' ∧ c2 = ' '
    · rw [collapseSpaces_cons_cons_drop c1 c2 rest h,
        collapseSpaces_head? c2 rest, h.1, h.2]
    · rw [collapseSpaces_cons_cons_keep c1 c2 rest h]
      rfl

/-- The output of the space-collapse step has no two adjacent spaces. -/
theorem chain'_collapseSpaces : ∀ l : List Char,
    List.Chain' (fun a b => ¬(a = ' ' ∧ b = ' ')) (collapseSpaces l)
  | [] => by simp [collapseSpaces]
  | [c] => by simp [collapseSpaces]
  | c1 :: c2 :: rest => by
    have ih := chain'_collapseSpaces (c2 :: rest)
    by_cases h : c1 = ' ' ∧ c2 = ' '
    · rw [collapseSpaces_cons_cons_drop c1 c2 rest h]
      exact ih
    · rw [collapseSpaces_cons_cons_keep c1 c2 rest h]
      refine List.chain'_cons'.mpr ⟨?_, ih⟩
      intro b hb
      rw [collapseSpaces_head? c2 rest] at hb
      have hb' : c2 = b := by simpa using hb
      subst hb'
      exact h

/-- A string with no two adjacent spaces is fixed by the space-collapse
step. -/
theorem collapseSpaces_eq_self : ∀ l : List Char,
    List.Chain' (fun a b => ¬(a = ' ' ∧ b = ' ')) l → collapseSpaces l = l
  | [], _ => rfl
  | [_], _ => rfl
  | c1 :: c2 :: rest, h => by
    have h1 := List.chain'_cons.mp h
    rw [collapseSpaces_cons_cons_keep c1 c2 rest h1.1,
      collapseSpaces_eq_self (c2 :: rest) h1.2]

/-- The space-collapse step distributes over an append whose right part
does not start with a space. -/
theorem collapseSpaces_append : ∀ (a b : List Char),
    b.head? ≠ some ' ' →
    collapseSpaces (a ++ b) = collapseSpaces a ++ collapseSpaces b
  | [], b, _ => by simp [collapseSpaces_nil]
  | [c], b, h => by
    cases b with
    | nil => simp [collapseSpaces_nil]
    | cons d b' =>
      have hd : ¬(c = ' ' ∧ d = ' ') := by
        rintro ⟨_, hd⟩
        exact h (by simp [hd])
      show collapseSpaces (c :: d :: b') = [c] ++ collapseSpaces (d :: b')
      rw [collapseSpaces_cons_cons_keep c d b' hd]
      rfl
  | c1 :: c2 :: rest, b, h => by
    have ih := collapseSpaces_append (c2 :: rest) b h
    by_cases h12 : c1 = ' ' ∧ c2 = ' '
    · show collapseSpaces (c1 :: c2 :: (rest ++ b)) = _
      rw [collapseSpaces_cons_cons_drop c1 c2 (rest ++ b) h12,
        show c2 :: (rest ++ b) = (c2 :: rest) ++ b from rfl, ih,
        collapseSpaces_cons_cons_drop c1 c2 rest h12]
    · show collapseSpaces (c1 :: c2 :: (rest ++ b)) = _
      rw [collapseSpaces_cons_cons_keep c1 c2 (rest ++ b) h12,
        show c2 :: (rest ++ b) = (c2 :: rest) ++ b from rfl, ih,
        collapseSpaces_cons_cons_keep c1 c2 rest h12]
      rfl

/-- The space-collapse step keeps a first character that is not followed
by a space-space pair. -/
theorem collapseSpaces_cons_of_ne : ∀ (c : Char) (l : List Char),
    ¬(c = ' ' ∧ l.head? = some ' ') →
    collapseSpaces (c :: l) = c :: collapseSpaces l
  | _, [], _ => rfl
  | c, d :: l', h => by
    refine collapseSpaces_cons_cons_keep c d l' ?_
    rintro ⟨hc, hd⟩
    exact h ⟨hc, by simp [hd]⟩

/-! ### Structure of `collapseNewlines` -/

theorem collapseNewlines_nil : collapseNewlines [] = [] := rfl

theorem collapseNewlines_cons_drop (c : Char) (r : List Char)
    (h : c = '\n' ∧ r.take 2 = ['\n', '\n']) :
    collapseNewlines (c :: r) = collapseNewlines r := by
  simp [collapseNewlines, h]

theorem collapseNewlines_cons_keep (c : Char) (r : List Char)
    (h : ¬(c = '\n' ∧ r.take 2 = ['\n', '\n'])) :
    collapseNewlines (c :: r) = c :: collapseNewlines r := by
  simp [collapseNewlines, h]

theorem collapseNewlines_head? : ∀ l : List Char,
    (collapseNewlines l).head? = l.head?
  | [] => rfl
  | c :: r => by
    by_cases h : c = '\n' ∧ r.take 2 = ['\n', '\n']
    · rw [collapseNewlines_cons_drop c r h, collapseNewlines_head? r]
      obtain ⟨hc, ht⟩ := h
      cases r with
      | nil => simp at ht
      | cons d r' =>
        have hd : d = '\n' := by
          simp [List.take] at ht
          exact ht.1
        rw [hc, hd]
        rfl
    · rw [collapseNewlines_cons_keep c r h]
      rfl

theorem collapseNewlines_getLast? : ∀ l : List Char,
    (collapseNewlines l).getLast? = l.getLast?
  | [] => rfl
  | c :: r => by
    by_cases h : c = '\n' ∧ r.take 2 = ['\n', '\n']
    · rw [collapseNewlines_cons_drop c r h, collapseNewlines_getLast? r]
      obtain ⟨hc, ht⟩ := h
      cases r with
      | nil => simp at ht
      | cons d r' => rw [List.getLast?_cons_cons]
    · rw [collapseNewlines_cons_keep c r h]
      cases r with
      | nil => rfl
      | cons d r' =>
        have hne : collapseNewlines (d :: r') ≠ [] := by
          intro hnil
          have hh := collapseNewlines_head? (d :: r')
          rw [hnil] at hh
          simp at hh
        rcases hE : collapseNewlines (d :: r') with _ | ⟨e, es⟩
        · exact absurd hE hne
        · rw [List.getLast?_cons_cons, ← hE,
            collapseNewlines_getLast? (d :: r'), List.getLast?_cons_cons]

/-- The output of the newline-collapse step has no run of three or more
newlines. -/
theorem collapseNewlines_no_triple : ∀ l : List Char,
    ¬ (['\n', '\n', '\n'] <:+: collapseNewlines l)
  | [] => by simp [collapseNewlines_nil]
  | c :: r => by
    by_cases h : c = '\n' ∧ r.take 2 = ['\n', '\n']
    · rw [collapseNewlines_cons_drop c r h]
      exact collapseNewlines_no_triple r
    · rw [collapseNewlines_cons_keep c r h]
      intro hinf
      rcases List.infix_cons_iff.mp hinf with hpre | hinf'
      · obtain ⟨u, hu⟩ := hpre
        have hc : c = '\n' := by
          have hh := congrArg List.head? hu
          simpa using hh.symm
        have htail : collapseNewlines r = '\n' :: '\n' :: u := by
          have hh := congrArg List.tail hu
          simpa using hh.symm
        have hr1 : r.head? = some '\n' := by
          rw [← collapseNewlines_head? r, htail]
          rfl
        cases r with
        | nil => simp at hr1
        | cons d r2 =>
          have hd : d = '\n' := by simpa using hr1
          by_cases h2 : d = '\n' ∧ r2.take 2 = ['\n', '\n']
          · refine h ⟨hc, ?_⟩
            obtain ⟨_, ht2⟩ := h2
            cases r2 with
            | nil => simp at ht2
            | cons e r3 =>
              have he : e = '\n' := by
                simp [List.take] at ht2
                exact ht2.1
              simp [List.take, hd, he]
          · rw [collapseNewlines_cons_keep d r2 h2] at htail
            have h5 : collapseNewlines r2 = '\n' :: u := by
              have hh := congrArg List.tail htail
              simpa using hh
            have hr2 : r2.head? = some '\n' := by
              rw [← collapseNewlines_head? r2, h5]
              rfl
            refine h ⟨hc, ?_⟩
            cases r2 with
            | nil => simp at hr2
            | cons e r3 =>
              have he : e = '\n' := by simpa using hr2
              simp [List.take, hd, he]
      · exact collapseNewlines_no_triple r hinf'

/-- A string with no three consecutive newlines is fixed by the
newline-collapse step. -/
theorem collapseNewlines_eq_self : ∀ l : List Char,
    ¬ (['\n', '\n', '\n'] <:+: l) → collapseNewlines l = l
  | [], _ => rfl
  | c :: r, h => by
    have hno : ¬ (['\n', '\n', '\n'] <:+: r) := by
      intro hr
      obtain ⟨s, t, e⟩ := hr
      exact h ⟨c :: s, t, by simp only [List.cons_append, List.append_assoc] at e ⊢; rw [e]⟩
    have hcond : ¬(c = '\n' ∧ r.take 2 = ['\n', '\n']) := by
      rintro ⟨hc, ht⟩
      apply h
      cases r with
      | nil => simp at ht
      | cons d r2 =>
        cases r2 with
        | nil => simp at ht
        | cons e r3 =>
          have hde : d = '\n' ∧ e = '\n' := by
            simp [List.take] at ht
            exact ht
          refine ⟨[], r3, ?_⟩
          simp [hc, hde.1, hde.2]
    rw [collapseNewlines_cons_keep c r hcond, collapseNewlines_eq_self r hno]

/-- The newline-collapse step preserves any adjacency invariant that is
indifferent to newlines on the right. -/
theorem chain'_collapseNewlines {R : Char → Char → Prop}
    (hR : ∀ a, R a '\n') : ∀ l : List Char,
    List.Chain' R l → List.Chain' R (collapseNewlines l)
  | [], h => by simpa [collapseNewlines_nil] using h
  | c :: r, h => by
    by_cases hc : c = '\n' ∧ r.take 2 = ['\n', '\n']
    · rw [collapseNewlines_cons_drop c r hc]
      exact chain'_collapseNewlines hR r h.tail
    · rw [collapseNewlines_cons_keep c r hc]
      refine List.chain'_cons'.mpr ⟨?_, chain'_collapseNewlines hR r h.tail⟩
      intro b hb
      rw [collapseNewlines_head? r] at hb
      cases r with
      | nil => simp at hb
      | cons d r2 =>
        have hb' : d = b := by simpa using hb
        subst hb'
        exact (List.chain'_cons.mp h).1

/-- The newline-collapse step distributes over an append whose right part
does not start with a newline. -/
theorem collapseNewlines_append : ∀ (a b : List Char),
    b.head? ≠ some '\n' →
    collapseNewlines (a ++ b) = collapseNewlines a ++ collapseNewlines b
  | [], _, _ => by simp [collapseNewlines_nil]
  | c :: a', b, hb => by
    have ih := collapseNewlines_append a' b hb
    by_cases hC : c = '\n' ∧ a'.take 2 = ['\n', '\n']
    · have hC' : c = '\n' ∧ (a' ++ b).take 2 = ['\n', '\n'] := by
        obtain ⟨hc, ht⟩ := hC
        refine ⟨hc, ?_⟩
        cases a' with
        | nil => simp at ht
        | cons d a'' =>
          cases a'' with
          | nil => simp at ht
          | cons e a''' =>
            simp [List.take] at ht ⊢
            exact ht
      rw [show (c :: a') ++ b = c :: (a' ++ b) from rfl,
        collapseNewlines_cons_drop c (a' ++ b) hC',
        collapseNewlines_cons_drop c a' hC, ih]
    · have hC' : ¬(c = '\n' ∧ (a' ++ b).take 2 = ['\n', '\n']) := by
        rintro ⟨hc, ht⟩
        apply hC
        refine ⟨hc, ?_⟩
        cases a' with
        | nil =>
          exfalso
          cases b with
          | nil => simp at ht
          | cons f b' =>
            have hf : f = '\n' := by
              simp [List.take] at ht
              exact ht.1
            exact hb (by simp [hf])
        | cons d a'' =>
          cases a'' with
          | nil =>
            exfalso
            cases b with
            | nil => simp at ht
            | cons f b' =>
              have hf : f = '\n' := by
                simp [List.take] at ht
                exact ht.2
              exact hb (by simp [hf])
          | cons e a''' =>
            simp [List.take] at ht ⊢
            exact ht
      rw [show (c :: a') ++ b = c :: (a' ++ b) from rfl,
        collapseNewlines_cons_keep c (a' ++ b) hC',
        collapseNewlines_cons_keep c a' hC, ih]
      rfl

/-- A run of three or more newlines collapses to exactly two. -/
theorem collapseNewlines_replicate (n : Nat) (h : 3 ≤ n) :
    collapseNewlines (List.replicate n '\n') = ['\n', '\n'] := by
  induction n with
  | zero => omega
  | succ m ih =>
    rcases Nat.lt_or_ge m 3 with hm | hm
    · have hm2 : m = 2 := by omega
      subst hm2
      decide
    · have htake : (List.replicate m '\n').take 2 = ['\n', '\n'] := by
        rw [List.take_replicate]
        have h2 : 2 ⊓ m = 2 := by omega
        rw [h2]
        rfl
      rw [List.replicate_succ,
        collapseNewlines_cons_drop '\n' (List.replicate m '\n') ⟨rfl, htake⟩]
      exact ih hm

theorem splitNl_ne_nil (l : List Char) : splitNl l ≠ [] :=
  splitChar_ne_nil '\n' l

theorem splitNl_cons_sep (r : List Char) :
    splitNl ('\n' :: r) = [] :: splitNl r :=
  splitChar_cons_sep '\n' r

theorem splitNl_cons_ne (c : Char) (r : List Char) (h : c ≠ '\n') :
    splitNl (c :: r) = (c :: (splitNl r).headD []) :: (splitNl r).tail :=
  splitChar_cons_ne '\n' c r h

theorem headD_mem {α : Type} (l : List α) (d : α) (h : l ≠ []) :
    l.headD d ∈ l := by
  cases l with
  | nil => exact absurd rfl h
  | cons a as => simp

/-- The newline-collapse step keeps the first line and only removes or
keeps later lines (removed lines are blank, and every kept later line was
already a later line). -/
theorem splitNl_collapseNewlines : ∀ l : List Char,
    (splitNl (collapseNewlines l)).headD [] = (splitNl l).headD [] ∧
    ∀ m ∈ (splitNl (collapseNewlines l)).tail,
      m ∈ (splitNl l).tail ∨ m = []
  | [] => ⟨rfl, by simp [collapseNewlines_nil, splitNl, splitChar]⟩
  | c :: r => by
    by_cases hc : c = '\n' ∧ r.take 2 = ['\n', '\n']
    · rw [collapseNewlines_cons_drop c r hc]
      have ih := splitNl_collapseNewlines r
      obtain ⟨hc1, ht⟩ := hc
      subst hc1
      cases r with
      | nil => simp at ht
      | cons d r2 =>
        have hd : d = '\n' := by
          simp [List.take] at ht
          exact ht.1
        subst hd
        constructor
        · rw [ih.1, splitNl_cons_sep, splitNl_cons_sep]
          rfl
        · intro m hm
          rcases ih.2 m hm with hm' | hm'
          · left
            rw [splitNl_cons_sep]
            rw [splitNl_cons_sep] at hm'
            simp only [List.tail_cons]
            exact List.mem_of_mem_tail hm'
          · right; exact hm'
    · rw [collapseNewlines_cons_keep c r hc]
      have ih := splitNl_collapseNewlines r
      by_cases hcn : c = '\n'
      · subst hcn
        rw [splitNl_cons_sep, splitNl_cons_sep]
        refine ⟨rfl, ?_⟩
        intro m hm
        simp only [List.tail_cons] at hm ⊢
        have hne : splitNl (collapseNewlines r) ≠ [] :=
          splitNl_ne_nil _
        rcases hX : splitNl (collapseNewlines r) with _ | ⟨h0, hs⟩
        · exact absurd hX hne
        · rw [hX] at hm
          rcases List.mem_cons.mp hm with hm0 | hmtail
          · subst hm0
            have hhead : m = (splitNl r).headD [] := by
              have h1 := ih.1
              rw [hX] at h1
              simpa using h1
            rw [hhead]
            left
            exact headD_mem _ _ (splitNl_ne_nil r)
          · have h2 := ih.2 m (by rw [hX]; exact hmtail)
            rcases h2 with h2 | h2
            · left; exact List.mem_of_mem_tail h2
            · right; exact h2
      · rw [splitNl_cons_ne c _ hcn, splitNl_cons_ne c r hcn]
        refine ⟨congrArg (fun z => c :: z) ih.1, ?_⟩
        intro m hm
        simp only [List.tail_cons] at hm ⊢
        exact ih.2 m hm

/-- The newline-collapse step preserves the invariant that every line is
stripped. -/
theorem linesStripped_collapseNewlines (l : List Char)
    (h : ∀ m ∈ splitNl l, pyStrip m = m) :
    ∀ m ∈ splitNl (collapseNewlines l), pyStrip m = m := by
  intro m hm
  have hd := splitNl_collapseNewlines l
  rcases hX : splitNl (collapseNewlines l) with _ | ⟨h0, hs⟩
  · exact absurd hX (splitNl_ne_nil _)
  · rw [hX] at hm
    rcases List.mem_cons.mp hm with hm0 | hmt
    · subst hm0
      have h1 : m = (splitNl l).headD [] := by
        have := hd.1
        rw [hX] at this
        simpa using this
      rw [h1]
      exact h _ (headD_mem _ _ (splitNl_ne_nil l))
    · have h2 := hd.2 m (by rw [hX]; exact hmt)
      rcases h2 with h2 | h2
      · exact h m (List.mem_of_mem_tail h2)
      · rw [h2]
        rfl

/-- The newline-collapse step preserves being strip-fixed. -/
theorem stripped_collapseNewlines (l : List Char) (h : pyStrip l = l) :
    pyStrip (collapseNewlines l) = collapseNewlines l := by
  rw [pyStrip_eq_self_iff] at h ⊢
  obtain ⟨h1, h2⟩ := h
  refine ⟨fun c hc => h1 c ?_, fun c hc => h2 c ?_⟩
  · rw [← collapseNewlines_head? l]
    exact hc
  · rw [← collapseNewlines_getLast? l]
    exact hc

/-! ### Composition lemmas for `clean_text` -/

theorem infix_cons_extend {l r : List Char} (c : Char) (h : l <:+: r) :
    l <:+: c :: r := by
  obtain ⟨s, t, e⟩ := h
  exact ⟨c :: s, t, by exact congrArg (fun z => c :: z) e⟩

theorem prefix_cons_cons {p q : List Char} (c : Char) (h : p <+: q) :
    (c :: p) <+: (c :: q) := by
  obtain ⟨t, ht⟩ := h
  exact ⟨t, by rw [List.cons_append, ht]⟩

theorem splitChar_headD_prefixOf (sep : Char) : ∀ l : List Char,
    (splitChar sep l).headD [] <+: l
  | [] => by simp [splitChar_nil]
  | c :: r => by
    by_cases h : c = sep
    · rw [h, splitChar_cons_sep]
      simp
    · rw [splitChar_cons_ne sep c r h]
      simp only [List.headD_cons]
      exact prefix_cons_cons c (splitChar_headD_prefixOf sep r)

/-- Every line is an infix of the split string. -/
theorem mem_splitChar_infixOf (sep : Char) : ∀ (l m : List Char),
    m ∈ splitChar sep l → m <:+: l
  | [], m, hm => by
    simp [splitChar_nil] at hm
    simp [hm]
  | c :: r, m, hm => by
    by_cases h : c = sep
    · rw [h, splitChar_cons_sep] at hm
      rcases List.mem_cons.mp hm with hm | hm
      · simp [hm]
      · exact infix_cons_extend c (mem_splitChar_infixOf sep r m hm)
    · rw [splitChar_cons_ne sep c r h] at hm
      rcases List.mem_cons.mp hm with hm | hm
      · subst hm
        exact (prefix_cons_cons c (splitChar_headD_prefixOf sep r)).isInfix
      · refine infix_cons_extend c (mem_splitChar_infixOf sep r m ?_)
        rcases hY : splitChar sep r with _ | ⟨y0, ys⟩
        · exact absurd hY (splitChar_ne_nil sep r)
        · rw [hY] at hm
          exact List.mem_cons_of_mem _ hm

theorem dropLast_append_getLastD {α : Type} : ∀ (l : List α) (d : α),
    l ≠ [] → l.dropLast ++ [l.getLastD d] = l
  | [], _, h => absurd rfl h
  | [_], _, _ => rfl
  | a :: b :: bs, d, _ => by
    have ih := dropLast_append_getLastD (b :: bs) a (by simp)
    rw [List.dropLast_cons₂, List.getLastD_cons, List.cons_append]
    exact congrArg (fun z => a :: z) ih

/-- Splitting a reversed string gives the reversed lines in reverse
order. -/
theorem splitChar_reverse (sep : Char) : ∀ l : List Char,
    splitChar sep l.reverse = ((splitChar sep l).reverse).map List.reverse
  | [] => rfl
  | c :: r => by
    have ih := splitChar_reverse sep r
    by_cases h : c = sep
    · rw [show (c :: r).reverse = r.reverse ++ [c] from by simp, h,
        splitChar_append_sep sep r.reverse [], splitChar_cons_sep,
        splitChar_nil]
      rw [show ([] :: splitChar sep r).reverse =
        (splitChar sep r).reverse ++ [[]] from by simp]
      rw [List.map_append, ← ih]
      have hid := dropLast_append_getLastD (splitChar sep r.reverse) []
        (splitChar_ne_nil sep r.reverse)
      calc (splitChar sep r.reverse).dropLast ++
            (splitChar sep r.reverse).getLastD [] :: [[]]
          = ((splitChar sep r.reverse).dropLast ++
            [(splitChar sep r.reverse).getLastD []]) ++ [[]] := by simp
        _ = splitChar sep r.reverse ++ [[]] := by rw [hid]
        _ = splitChar sep r.reverse ++
            List.map List.reverse [[]] := rfl
    · rw [show (c :: r).reverse = r.reverse ++ [c] from by simp,
        splitChar_append_single sep c r.reverse h, ih,
        splitChar_cons_ne sep c r h]
      rcases hY : splitChar sep r with _ | ⟨y0, ys⟩
      · exact absurd hY (splitChar_ne_nil sep r)
      · simp

/-- A chain invariant that tolerates newlines on either side survives
joining lines with newlines. -/
theorem chain'_joinNl {R : Char → Char → Prop} (hR1 : ∀ a, R a '\n')
    (hR2 : ∀ a, R '\n' a) : ∀ ls : List (List Char),
    (∀ m ∈ ls, List.Chain' R m) → List.Chain' R (joinNl ls)
  | [], _ => by simp [joinNl]
  | [l], h => h l (by simp)
  | l :: l2 :: ls, h => by
    have ih := chain'_joinNl hR1 hR2 (l2 :: ls)
      (fun m hm => h m (List.mem_cons_of_mem l hm))
    show List.Chain' R (l ++ '\n' :: joinNl (l2 :: ls))
    rw [List.chain'_append]
    refine ⟨h l (by simp), List.chain'_cons'.mpr ⟨fun b _ => hR2 b, ih⟩, ?_⟩
    intro x _ y hy
    have hy' : '\n' = y := by simpa using hy
    subst hy'
    exact hR1 x

theorem chain'_of_infixOf {R : Char → Char → Prop} {l m : List Char}
    (h : List.Chain' R l) (hm : m <:+: l) : List.Chain' R m :=
  List.Chain'.infix h hm

/-- The normalized output has no two adjacent spaces. -/
theorem chain'_clean_text (s : List Char) :
    List.Chain' (fun a b => ¬(a = ' ' ∧ b = ' ')) (clean_text s) := by
  have h2 : List.Chain' (fun a b => ¬(a = ' ' ∧ b = ' '))
      (collapseNewlines (collapseSpaces s)) :=
    chain'_collapseNewlines (fun a hcon => absurd hcon.2 (by decide)) _
      (chain'_collapseSpaces s)
  have h3 : ∀ m ∈ (splitNl (collapseNewlines (collapseSpaces s))).map pyStrip,
      List.Chain' (fun a b => ¬(a = ' ' ∧ b = ' ')) m := by
    intro m hm
    obtain ⟨m0, hm0, rfl⟩ := List.mem_map.mp hm
    exact chain'_of_infixOf
      (chain'_of_infixOf h2 (mem_splitChar_infixOf '\n' _ m0 hm0))
      (pyStrip_infixOf m0)
  have h4 := chain'_joinNl (fun a hcon => absurd hcon.2 (by decide))
    (fun a hcon => absurd hcon.1 (by decide)) _ h3
  exact chain'_of_infixOf h4 (pyStrip_infixOf _)

/-- Left-stripping a string whose lines are all stripped keeps all lines
stripped. -/
theorem linesStripped_dropWhile (t : List Char)
    (h : ∀ m ∈ splitNl t, pyStrip m = m) :
    ∀ m ∈ splitNl (t.dropWhile isPySpace), pyStrip m = m := by
  induction t with
  | nil => simpa using h
  | cons c r ih =>
    by_cases hws : isPySpace c
    · by_cases hcn : c = '\n'
      · subst hcn
        rw [List.dropWhile_cons, if_pos (by simp [hws])]
        apply ih
        intro m hm
        apply h
        rw [splitNl_cons_sep]
        exact List.mem_cons_of_mem _ hm
      · exfalso
        have hline := h (c :: (splitNl r).headD [])
          (by rw [splitNl_cons_ne c r hcn]; exact List.mem_cons_self _ _)
        rw [pyStrip_eq_self_iff] at hline
        exact absurd (hline.1 c rfl) (by simp [hws])
    · rw [List.dropWhile_cons, if_neg (by simp [hws])]
      exact h

/-- Stripping a string whose lines are all stripped keeps all lines
stripped. -/
theorem linesStripped_pyStrip (t : List Char)
    (h : ∀ m ∈ splitNl t, pyStrip m = m) :
    ∀ m ∈ splitNl (pyStrip t), pyStrip m = m := by
  have h1 := linesStripped_dropWhile t h
  have h2 : ∀ m ∈ splitNl ((t.dropWhile isPySpace).reverse),
      pyStrip m = m := by
    intro m hm
    rw [show splitNl ((t.dropWhile isPySpace).reverse) =
      ((splitNl (t.dropWhile isPySpace)).reverse).map List.reverse from
      splitChar_reverse '\n' _] at hm
    obtain ⟨m0, hm0, rfl⟩ := List.mem_map.mp hm
    rw [List.mem_reverse] at hm0
    have h3 := h1 m0 hm0
    rw [pyStrip_eq_self_iff] at h3 ⊢
    refine ⟨fun c hc => h3.2 c ?_, fun c hc => h3.1 c ?_⟩
    · rw [List.head?_reverse] at hc
      exact hc
    · rw [List.getLast?_reverse] at hc
      exact hc
  have h3 := linesStripped_dropWhile _ h2
  intro m hm
  rw [show splitNl (pyStrip t) =
    ((splitNl ((t.dropWhile isPySpace).reverse.dropWhile
      isPySpace)).reverse).map List.reverse from
    splitChar_reverse '\n' _] at hm
  obtain ⟨m0, hm0, rfl⟩ := List.mem_map.mp hm
  rw [List.mem_reverse] at hm0
  have h4 := h3 m0 hm0
  rw [pyStrip_eq_self_iff] at h4 ⊢
  refine ⟨fun c hc => h4.2 c ?_, fun c hc => h4.1 c ?_⟩
  · rw [List.head?_reverse] at hc
    exact hc
  · rw [List.getLast?_reverse] at hc
    exact hc

/-- Every line of the normalized output is stripped. -/
theorem clean_text_linesStripped (s : List Char) :
    ∀ m ∈ splitNl (clean_text s), pyStrip m = m := by
  have hL : ∀ m ∈ (splitNl (collapseNewlines (collapseSpaces s))).map pyStrip,
      pyStrip m = m ∧ '\n' ∉ m := by
    intro m hm
    obtain ⟨m0, hm0, rfl⟩ := List.mem_map.mp hm
    refine ⟨pyStrip_pyStrip m0, fun hnl => ?_⟩
    exact mem_splitChar_not_sep '\n' _ m0 hm0
      ((pyStrip_infixOf m0).sublist.subset hnl)
  have hne : (splitNl (collapseNewlines (collapseSpaces s))).map pyStrip
      ≠ [] := by
    intro hnil
    exact splitNl_ne_nil _ (List.map_eq_nil_iff.mp hnil)
  have hsplit := splitNl_joinNl _ (fun m hm => (hL m hm).2) hne
  have hlines : ∀ m ∈ splitNl (joinNl
      ((splitNl (collapseNewlines (collapseSpaces s))).map pyStrip)),
      pyStrip m = m := by
    rw [hsplit]
    intro m hm
    exact (hL m hm).1
  exact linesStripped_pyStrip _ hlines

/-- The normalized output is itself strip-fixed. -/
theorem clean_text_stripFixed (s : List Char) :
    pyStrip (clean_text s) = clean_text s :=
  pyStrip_pyStrip _

/-- On a string that already satisfies the output invariants of one
normalization pass, `clean_text` reduces to the newline-collapse step. -/
theorem clean_text_eq_collapseNewlines (t : List Char)
    (hsp : List.Chain' (fun a b => ¬(a = ' ' ∧ b = ' ')) t)
    (hls : ∀ m ∈ splitNl t, pyStrip m = m)
    (hst : pyStrip t = t) :
    clean_text t = collapseNewlines t := by
  show pyStrip (joinNl ((splitNl (collapseNewlines
    (collapseSpaces t))).map pyStrip)) = _
  rw [collapseSpaces_eq_self t hsp]
  have h1 := linesStripped_collapseNewlines t hls
  have hmap : (splitNl (collapseNewlines t)).map pyStrip =
      splitNl (collapseNewlines t) := by
    have h2 : ∀ m ∈ splitNl (collapseNewlines t), pyStrip m = id m := h1
    rw [List.map_congr_left h2, List.map_id]
  rw [hmap, joinNl_splitNl, stripped_collapseNewlines t hst]

/-- A string satisfying all four output invariants is a fixed point of
`clean_text`. -/
theorem clean_text_eq_self (t : List Char)
    (hsp : List.Chain' (fun a b => ¬(a = ' ' ∧ b = ' ')) t)
    (hls : ∀ m ∈ splitNl t, pyStrip m = m)
    (hst : pyStrip t = t)
    (hnt : ¬ (['\n', '\n', '\n'] <:+: t)) :
    clean_text t = t := by
  rw [clean_text_eq_collapseNewlines t hsp hls hst,
    collapseNewlines_eq_self t hnt]

theorem pyStrip_nil : pyStrip [] = [] := rfl

theorem splitNl_append_sep (a b : List Char) :
    splitNl (a ++ '\n' :: b) =
      (splitNl a).dropLast ++ (splitNl a).getLastD [] :: splitNl b :=
  splitChar_append_sep '\n' a b

theorem splitNl_append_single (c : Char) (a : List Char) (h : c ≠ '\n') :
    splitNl (a ++ [c]) =
      (splitNl a).dropLast ++ [(splitNl a).getLastD [] ++ [c]] :=
  splitChar_append_single '\n' c a h

theorem chain'_replicate_newline (n : Nat) :
    List.Chain' (fun a b => ¬(a = ' ' ∧ b = ' '))
      (List.replicate n '\n') := by
  induction n with
  | zero => simp
  | succ m ih =>
    rw [List.replicate_succ]
    refine List.chain'_cons'.mpr ⟨?_, ih⟩
    intro b _ hcon
    exact absurd hcon.1 (by decide)

/-- The join of a middle group of lines is an infix of the join of the
whole list of lines. -/
theorem joinNl_infix_middle (D T mid : List (List Char)) (h : mid ≠ []) :
    joinNl mid <:+: joinNl (D ++ mid ++ T) := by
  have hmidT : joinNl mid <:+: joinNl (mid ++ T) := by
    cases T with
    | nil => simp
    | cons t0 ts =>
      rw [joinNl_append mid (t0 :: ts) h (by simp)]
      exact ⟨[], '\n' :: joinNl (t0 :: ts), by simp⟩
  cases D with
  | nil => simpa using hmidT
  | cons d0 ds =>
    rw [List.append_assoc,
      joinNl_append (d0 :: ds) (mid ++ T) (by simp)
        (fun hc => h (List.append_eq_nil.mp hc).1)]
    obtain ⟨s2, t2, he⟩ := hmidT
    refine ⟨joinNl (d0 :: ds) ++ '\n' :: s2, t2, ?_⟩
    rw [← he]
    simp

/-- The final overall strip keeps an interior segment delimited by
non-whitespace characters. -/
theorem pyStrip_segment (t mid : List Char) (x y : Char)
    (hx : isPySpace x = false) (hy : isPySpace y = false)
    (h : x :: (mid ++ [y]) <:+: t) :
    x :: (mid ++ [y]) <:+: pyStrip t := by
  obtain ⟨s, t2, hst⟩ := h
  have hk := pyStrip_keeps_segment s t2 mid x y hx hy
  rw [hst] at hk
  exact ⟨_, _, hk.symm⟩

/-- A run of three or more newlines between two non-whitespace characters
survives normalization as exactly two newlines between them. -/
theorem clean_text_delimited_run (u v : List Char) (x y : Char) (n : Nat)
    (hx : isPySpace x = false) (hy : isPySpace y = false) (hn : 3 ≤ n) :
    [x, '\n', '\n', y] <:+:
      clean_text (u ++ x :: (List.replicate n '\n' ++ y :: v)) := by
  have hxs : x ≠ ' ' := by
    intro he; rw [he] at hx; exact absurd hx (by decide)
  have hxn : x ≠ '\n' := by
    intro he; rw [he] at hx; exact absurd hx (by decide)
  have hys : y ≠ ' ' := by
    intro he; rw [he] at hy; exact absurd hy (by decide)
  have hyn : y ≠ '\n' := by
    intro he; rw [he] at hy; exact absurd hy (by decide)
  show [x, '\n', '\n', y] <:+: pyStrip (joinNl ((splitNl (collapseNewlines
    (collapseSpaces (u ++ x :: (List.replicate n '\n' ++ y :: v))))).map
    pyStrip))
  rw [collapseSpaces_append u _ (by simp [hxs]),
    collapseSpaces_cons_of_ne x _ (fun hc => hxs hc.1),
    collapseSpaces_append (List.replicate n '\n') _ (by simp [hys]),
    collapseSpaces_eq_self (List.replicate n '\n')
      (chain'_replicate_newline n),
    collapseSpaces_cons_of_ne y v (fun hc => hys hc.1)]
  rw [collapseNewlines_append (collapseSpaces u) _ (by simp [hxn]),
    collapseNewlines_cons_keep x _ (fun hc => hxn hc.1),
    collapseNewlines_append (List.replicate n '\n') _ (by simp [hyn]),
    collapseNewlines_replicate n hn,
    collapseNewlines_cons_keep y _ (fun hc => hyn hc.1)]
  rw [show collapseNewlines (collapseSpaces u) ++
      x :: (['\n', '\n'] ++ y :: collapseNewlines (collapseSpaces v)) =
      (collapseNewlines (collapseSpaces u) ++ [x]) ++
      '\n' :: ('\n' :: y :: collapseNewlines (collapseSpaces v)) from
    by simp]
  rw [splitNl_append_sep, splitNl_append_single x _ hxn, splitNl_cons_sep,
    splitNl_cons_ne y _ hyn, List.dropLast_concat, List.getLastD_concat,
    List.map_append]
  simp only [List.map_cons]
  rw [pyStrip_nil, pyStrip_append_nonspace _ x hx,
    pyStrip_cons_nonspace y _ hy]
  rw [show (List.map pyStrip
        ((splitNl (collapseNewlines (collapseSpaces u))).dropLast)) ++
      (List.dropWhile isPySpace
        ((splitNl (collapseNewlines (collapseSpaces u))).getLastD []) ++
        [x]) ::
      ([] : List Char) ::
      (y :: (List.dropWhile isPySpace
        (((splitNl (collapseNewlines
          (collapseSpaces v))).headD []).reverse)).reverse) ::
      List.map pyStrip ((splitNl (collapseNewlines
        (collapseSpaces v))).tail) =
      (List.map pyStrip
        ((splitNl (collapseNewlines (collapseSpaces u))).dropLast)) ++
      [List.dropWhile isPySpace
        ((splitNl (collapseNewlines (collapseSpaces u))).getLastD []) ++
        [x],
       ([] : List Char),
       y :: (List.dropWhile isPySpace
        (((splitNl (collapseNewlines
          (collapseSpaces v))).headD []).reverse)).reverse] ++
      List.map pyStrip ((splitNl (collapseNewlines
        (collapseSpaces v))).tail) from by simp]
  have hmid := joinNl_infix_middle
    (List.map pyStrip
      ((splitNl (collapseNewlines (collapseSpaces u))).dropLast))
    (List.map pyStrip ((splitNl (collapseNewlines (collapseSpaces v))).tail))
    [List.dropWhile isPySpace
      ((splitNl (collapseNewlines (collapseSpaces u))).getLastD []) ++ [x],
     ([] : List Char),
     y :: (List.dropWhile isPySpace
      (((splitNl (collapseNewlines
        (collapseSpaces v))).headD []).reverse)).reverse]
    (by simp)
  have hpat : [x, '\n', '\n', y] <:+:
      joinNl [List.dropWhile isPySpace
        ((splitNl (collapseNewlines (collapseSpaces u))).getLastD []) ++ [x],
       ([] : List Char),
       y :: (List.dropWhile isPySpace
        (((splitNl (collapseNewlines
          (collapseSpaces v))).headD []).reverse)).reverse] := by
    refine ⟨List.dropWhile isPySpace
      ((splitNl (collapseNewlines (collapseSpaces u))).getLastD []),
      (List.dropWhile isPySpace
        (((splitNl (collapseNewlines
          (collapseSpaces v))).headD []).reverse)).reverse, ?_⟩
    simp [joinNl]
  exact pyStrip_segment _ ['\n', '\n'] x y hx hy
    (hpat.trans hmid)

theorem countP_bnot_add {α : Type} (p : α → Bool) (l : List α) :
    l.countP (fun a => !(p a)) + l.countP p = l.length := by
  induction l with
  | nil => simp
  | cons a l ih =>
    by_cases h : p a <;> simp [List.countP_cons, h] <;> omega

/-- The batch loop visits every discovered file in order and records one
outcome per file; no failure interrupts it. -/
theorem batchLoop_fst (env : Env) (pre : Bool) (images : List String) :
    (batchLoop env pre images).1 =
      images.map (fun p => (runDocument env p pre).1) := by
  induction images with
  | nil => rfl
  | cons p rest ih => simp [batchLoop, ih]

/-- Every event of the batch loop comes from the processing of one of the
discovered files. -/
theorem batchLoop_events_mem (env : Env) (pre : Bool) (images : List String)
    (ev : Ev) (h : ev ∈ (batchLoop env pre images).2) :
    ∃ p ∈ images, ev ∈ (runDocument env p pre).2 := by
  induction images with
  | nil => simp [batchLoop] at h
  | cons p rest ih =>
    simp only [batchLoop, List.mem_append] at h
    rcases h with h | h
    · exact ⟨p, by simp, h⟩
    · obtain ⟨q, hq, hev⟩ := ih h
      exact ⟨q, by simp [hq], hev⟩

/-- `save_results` only emits text/markdown write events. -/
theorem save_results_events (env : Env) (text : List Char) (path : String)
    (meta : Bool) (ev : Ev) (h : ev ∈ (save_results env text path meta).2) :
    (∃ p, ev = Ev.saveTxt p) ∨ ∃ p, ev = Ev.saveMd p := by
  simp only [save_results] at h
  split at h
  · simp at h; exact Or.inl ⟨_, h⟩
  · split at h
    · split at h <;> simp at h <;> rcases h with h | h <;>
        first
        | exact Or.inl ⟨_, h⟩
        | exact Or.inr ⟨_, h⟩
    · simp at h; exact Or.inl ⟨_, h⟩

/-- Every recognition event of the single-document pipeline carries the
fixed language hint and the fixed engine configuration. -/
theorem ocr_recognize_fixed (env : Env) (path : String) (pre sp : Bool)
    (l c : String)
    (h : Ev.recognize l c ∈ (ocr_documento_legal env path pre sp).2) :
    l = tessLang ∧ c = custom_config := by
  rcases ho : env.openImage path with e | img
  · simp [ocr_documento_legal, ho] at h
  · rcases pre with _ | _
    · rcases hr : env.imageToString img tessLang custom_config with e2 | raw <;>
        simp [ocr_documento_legal, ho, hr] at h <;> exact ⟨h.1, h.2⟩
    · rcases sp with _ | _
      · rcases hr : env.imageToString (preprocess_image img) tessLang
            custom_config with e2 | raw <;>
          simp [ocr_documento_legal, ho, hr] at h <;> exact ⟨h.1, h.2⟩
      · rcases hs : env.saveImage (preprocessedPath path) (preprocess_image img)
            with e2 | u
        · simp [ocr_documento_legal, ho, hs] at h
        · rcases hr : env.imageToString (preprocess_image img) tessLang
              custom_config with e3 | raw <;>
            simp [ocr_documento_legal, ho, hs, hr] at h <;> exact ⟨h.1, h.2⟩

/-- With `save_preprocessed = False` (as in the batch loop) the
single-document pipeline never emits a preprocessed-image write event. -/
theorem ocr_no_savePre (env : Env) (path : String) (pre : Bool) (p : String) :
    Ev.savePre p ∉ (ocr_documento_legal env path pre false).2 := by
  intro h
  rcases ho : env.openImage path with e | img
  · simp [ocr_documento_legal, ho] at h
  · rcases pre with _ | _
    · rcases hr : env.imageToString img tessLang custom_config with e2 | raw <;>
        simp [ocr_documento_legal, ho, hr] at h
    · rcases hr : env.imageToString (preprocess_image img) tessLang
          custom_config with e2 | raw <;>
        simp [ocr_documento_legal, ho, hr] at h

/-- The batch loop never emits a preprocessed-image write event. -/
theorem batchLoop_no_savePre (env : Env) (pre : Bool) (images : List String)
    (p : String) : Ev.savePre p ∉ (batchLoop env pre images).2 := by
  intro h
  obtain ⟨q, _, hev⟩ := batchLoop_events_mem env pre images _ h
  have hocr := ocr_no_savePre env q pre p
  rcases hr : ocr_documento_legal env q pre false with ⟨res, evs⟩
  rw [hr] at hocr
  rcases res with e | text
  · simp only [runDocument, hr] at hev
    exact hocr hev
  · have hsr := save_results_events env text q true (Ev.savePre p)
    rcases hs : save_results env text q true with ⟨res2, evs2⟩
    rw [hs] at hsr
    rcases res2 with e2 | u <;>
      simp only [runDocument, hr, hs] at hev <;>
      rcases List.mem_append.mp hev with hm | hm
    · exact hocr hm
    · rcases hsr hm with ⟨_, hc⟩ | ⟨_, hc⟩ <;> exact Ev.noConfusion hc
    · exact hocr hm
    · rcases hsr hm with ⟨_, hc⟩ | ⟨_, hc⟩ <;> exact Ev.noConfusion hc

/-- Every recognition event of one batch-loop iteration carries the fixed
configuration. -/
theorem runDocument_recognize_fixed (env : Env) (q : String) (pre : Bool)
    (l c : String) (h : Ev.recognize l c ∈ (runDocument env q pre).2) :
    l = tessLang ∧ c = custom_config := by
  have hocr := fun hh => ocr_recognize_fixed env q pre false l c hh
  rcases hr : ocr_documento_legal env q pre false with ⟨res, evs⟩
  rw [hr] at hocr
  rcases res with e | text
  · simp only [runDocument, hr] at h
    exact hocr h
  · have hsr := save_results_events env text q true (Ev.recognize l c)
    rcases hs : save_results env text q true with ⟨res2, evs2⟩
    rw [hs] at hsr
    rcases res2 with e2 | u <;> simp only [runDocument, hr, hs] at h <;>
      rcases List.mem_append.mp h with hm | hm
    · exact hocr hm
    · rcases hsr hm with ⟨_, hc⟩ | ⟨_, hc⟩ <;> exact Ev.noConfusion hc
    · exact hocr hm
    · rcases hsr hm with ⟨_, hc⟩ | ⟨_, hc⟩ <;> exact Ev.noConfusion hc

/-- Python `s.strip()` gives the empty string exactly when every character
is whitespace. -/
theorem pyStrip_eq_nil_iff (l : List Char) :
    pyStrip l = [] ↔ ∀ c ∈ l, isPySpace c := by
  unfold pyStrip
  rw [List.reverse_eq_nil_iff, List.dropWhile_eq_nil_iff]
  simp only [List.mem_reverse]
  constructor
  · intro h x hx
    rcases List.mem_append.mp
        ((List.takeWhile_append_dropWhile (p := isPySpace) (l := l)) ▸ hx) with
      hx' | hx'
    · exact List.mem_takeWhile_imp hx'
    · exact h x hx'
  · intro h x hx
    exact h x ((List.dropWhile_sublist (p := isPySpace) (l := l)).subset hx)

/-- The Python truthiness test `if l.strip()` of the line statistic holds
exactly when the line has a non-whitespace character. -/
theorem strip_truthy (l : List Char) :
    (!(pyStrip l).isEmpty) = l.any (fun c => !(isPySpace c)) := by
  rw [Bool.eq_iff_iff, Bool.not_eq_true', List.isEmpty_eq_false,
    List.any_eq_true]
  constructor
  · intro h
    by_contra hc
    push_neg at hc
    refine h ((pyStrip_eq_nil_iff l).mpr fun c hcl => ?_)
    have := hc c hcl
    simpa using this
  · rintro ⟨c, hcl, hc⟩ hnil
    have := (pyStrip_eq_nil_iff l).mp hnil c hcl
    simp_all

/-! ## Claim C1 -/

/-- Claim C1: for every batch of N discovered files of which exactly K fail
during processing (decode, recognition, or result writing), the batch loop
produces an outcome for all N files in discovery order — N entries total,
K failed and N−K successful — and never aborts early because one document
failed. -/
theorem batch_completeness_under_partial_failure (env : Env) (pre : Bool)
    (images : List String) (K : Nat)
    (hK : images.countP (fun p => (runDocument env p pre).1.isFailure) = K) :
    (batchLoop env pre images).1 =
      images.map (fun p => (runDocument env p pre).1) ∧
    (batchLoop env pre images).1.length = images.length ∧
    (batchLoop env pre images).1.countP (fun o => o.isFailure) = K ∧
    (batchLoop env pre images).1.countP (fun o => !(o.isFailure)) =
      images.length - K := by
  have hmap := batchLoop_fst env pre images
  refine ⟨hmap, by rw [hmap, List.length_map], ?_, ?_⟩
  · rw [hmap, List.countP_map]
    exact hK
  · rw [hmap, List.countP_map]
    have hcomp : ((fun o => !(o.isFailure)) ∘
        fun p => (runDocument env p pre).1) =
        fun p => !((runDocument env p pre).1.isFailure) := rfl
    rw [hcomp]
    have hadd := countP_bnot_add
      (fun p => (runDocument env p pre).1.isFailure) images
    omega

/-- Witness for C1 at a concrete three-file batch whose middle file fails
to decode: 3 entries, 1 failed, 2 successful. -/
theorem batch_completeness_under_partial_failure_witness :
    (batchLoop envBFails true (globImages envBFails "input")).1 =
      (globImages envBFails "input").map
        (fun p => (runDocument envBFails p true).1) ∧
    (batchLoop envBFails true (globImages envBFails "input")).1.length =
      (globImages envBFails "input").length ∧
    (batchLoop envBFails true (globImages envBFails "input")).1.countP
      (fun o => o.isFailure) = 1 ∧
    (batchLoop envBFails true (globImages envBFails "input")).1.countP
      (fun o => !(o.isFailure)) = (globImages envBFails "input").length - 1 :=
  batch_completeness_under_partial_failure envBFails true
    (globImages envBFails "input") 1 (by decide)

/-! ## Claim C3 -/

/-- Claim C3 counterexample: in the single-document pipeline with
`save_preprocessed` requested, a failing write of the intermediate
preprocessed image DOES propagate out of the pipeline — the run returns the
write error and the recognition engine is never invoked, contradicting the
claim that the document is still recognized and returned. -/
theorem persist_failure_propagates_counterexample :
    (ocr_documento_legal envSaveFails "input/doc.png" true true).1 =
      .error .writeError ∧
    Ev.recognize tessLang custom_config ∉
      (ocr_documento_legal envSaveFails "input/doc.png" true true).2 := by
  have h2 : ocr_documento_legal envSaveFails "input/doc.png" true true =
      (.error .writeError, [Ev.savePre "output/doc_preprocessed.png"]) := rfl
  refine ⟨by rw [h2], ?_⟩
  rw [h2]
  simp

/-- Claim C3 amended: when persisting the preprocessed image fails, the
failure is fatal to that single-document pipeline run — the error
propagates out, the engine is never invoked, and no text is returned. -/
theorem persist_failure_propagates (env : Env) (path : String)
    (img : RasterImage) (e : PyError)
    (h1 : env.openImage path = .ok img)
    (h2 : env.saveImage (preprocessedPath path) (preprocess_image img) =
      .error e) :
    ocr_documento_legal env path true true =
      (.error e, [Ev.savePre (preprocessedPath path)]) := by
  simp [ocr_documento_legal, h1, h2]

/-- Witness for the amended C3 at a concrete failing environment. -/
theorem persist_failure_propagates_witness :
    ocr_documento_legal envSaveFails "input/doc.png" true true =
      (.error .writeError, [Ev.savePre (preprocessedPath "input/doc.png")]) :=
  persist_failure_propagates envSaveFails "input/doc.png" imgSample
    .writeError rfl rfl

/-! ## Claim C6 -/

/-- Claim C6: for every valid input raster (width ≥ 1, height ≥ 1, any
color mode), `preprocess_image` returns a single-channel greyscale raster
(mode "L") of the same width and height. -/
theorem preprocess_preserves_dimensions (img : RasterImage)
    (hw : 1 ≤ img.width) (hh : 1 ≤ img.height) :
    (preprocess_image img).width = img.width ∧
    (preprocess_image img).height = img.height ∧
    (preprocess_image img).mode = "L" := by
  simp only [preprocess_image, filterSharpen, enhanceContrast2, convertL]
  split <;> simp

/-- Witness for C6 at a concrete 4×3 RGB raster. -/
theorem preprocess_preserves_dimensions_witness :
    (preprocess_image imgSample).width = imgSample.width ∧
    (preprocess_image imgSample).height = imgSample.height ∧
    (preprocess_image imgSample).mode = "L" :=
  preprocess_preserves_dimensions imgSample (by decide) (by decide)

/-! ## Claim C7 -/

/-- Claim C7: a batch over a directory with zero matching files produces an
empty result, takes the advisory early-return branch (no exception), and
the process exits with status zero. -/
theorem empty_batch_is_advisory (env : Env) (args : List String)
    (dir : String) (hlen : 2 ≤ args.length) (hpath : args.getD 1 "" = dir)
    (hex : env.pathExists dir = true) (hdir : env.isDir dir = true)
    (hempty : globImages env dir = []) :
    (∀ pre, process_batch env dir pre =
      { noInput := true, outcomes := [], events := [] }) ∧
    (main env args).exitCode = 0 ∧
    (main env args).batch =
      some { noInput := true, outcomes := [], events := [] } := by
  have hb : ∀ pre, process_batch env dir pre =
      { noInput := true, outcomes := [], events := [] } := by
    intro pre
    simp [process_batch, hempty]
  have hmain : main env args =
      { exitCode := 0,
        batch := some { noInput := true, outcomes := [], events := [] },
        events := [] } := by
    simp only [main]
    rw [if_neg (by omega), hpath]
    simp [hex, hdir, hb]
  exact ⟨hb, by rw [hmain], by rw [hmain]⟩

/-- Witness for C7 at a concrete empty input directory. -/
theorem empty_batch_is_advisory_witness :
    process_batch envEmptyDir "input" true =
      { noInput := true, outcomes := [], events := [] } ∧
    (main envEmptyDir ["ocr_legal.py", "input"]).exitCode = 0 ∧
    (main envEmptyDir ["ocr_legal.py", "input"]).batch =
      some { noInput := true, outcomes := [], events := [] } := by
  have h := empty_batch_is_advisory envEmptyDir ["ocr_legal.py", "input"]
    "input" (by decide) rfl rfl (by decide) rfl
  exact ⟨h.1 true, h.2.1, h.2.2⟩

/-! ## Claim C8 -/

/-- Claim C8: every invocation of the recognition engine — in the
single-document pipeline with any flags, and in every batch — passes the
identical fixed configuration: language hint `spa` then `eng`
(`"spa+eng"`), and the fixed `--oem 3 --psm 6` configuration string
(combined neural+legacy engine mode and single-uniform-block
segmentation); no invocation varies it. -/
theorem recognition_config_is_fixed :
    (∀ env path pre sp l c,
      Ev.recognize l c ∈ (ocr_documento_legal env path pre sp).2 →
        l = tessLang ∧ c = custom_config) ∧
    (∀ env dir pre l c,
      Ev.recognize l c ∈ (process_batch env dir pre).events →
        l = tessLang ∧ c = custom_config) ∧
    tessLang = "spa+eng" ∧
    splitChar '+' tessLang.toList = ["spa".toList, "eng".toList] ∧
    custom_config = "--oem 3 --psm 6" := by
  refine ⟨fun env path pre sp l c h =>
    ocr_recognize_fixed env path pre sp l c h, ?_, rfl, by decide, rfl⟩
  intro env dir pre l c h
  simp only [process_batch] at h
  split at h
  · simp at h
  · obtain ⟨q, _, hev⟩ :=
      batchLoop_events_mem env pre (globImages env dir) (Ev.recognize l c) h
    exact runDocument_recognize_fixed env q pre l c hev

/-- Witness for C8: a concrete successful single-document run invokes the
engine, and that invocation carries the fixed configuration. -/
theorem recognition_config_is_fixed_witness :
    "spa+eng" = tessLang ∧ "--oem 3 --psm 6" = custom_config :=
  recognition_config_is_fixed.1 envOk "input/a.png" true false
    "spa+eng" "--oem 3 --psm 6" (by decide)

/-! ## Claim C9 -/

/-- Claim C9: in batch mode the per-document pipeline always runs with
`save_preprocessed` at its default `False` — the batch entry point has no
such parameter and the CLI's `--save-prep` flag is not forwarded — so no
preprocessed-image artifact write ever happens during batch processing,
whatever the command line was. -/
theorem batch_never_saves_preprocessed (env : Env) (args : List String)
    (dir : String) (hlen : 2 ≤ args.length) (hpath : args.getD 1 "" = dir)
    (hex : env.pathExists dir = true) (hdir : env.isDir dir = true)
    (p : String) :
    Ev.savePre p ∉ (main env args).events ∧
    ∀ pre, Ev.savePre p ∉ (process_batch env dir pre).events := by
  have hpb : ∀ pre, Ev.savePre p ∉ (process_batch env dir pre).events := by
    intro pre h
    simp only [process_batch] at h
    split at h
    · simp at h
    · exact batchLoop_no_savePre env pre _ p h
  have hmain : (main env args).events =
      (process_batch env dir (!(args.contains "--no-prep"))).events := by
    simp only [main]
    rw [if_neg (by omega), hpath]
    simp [hex, hdir]
  exact ⟨by rw [hmain]; exact hpb _, hpb⟩

/-- Witness for C9 at a concrete batch invocation that passes
`--save-prep`: still no preprocessed-image write event. -/
theorem batch_never_saves_preprocessed_witness :
    Ev.savePre "output/a_preprocessed.png" ∉
      (main envOk ["ocr_legal.py", "input", "--save-prep"]).events ∧
    Ev.savePre "output/a_preprocessed.png" ∉
      (process_batch envOk "input" true).events := by
  have h := batch_never_saves_preprocessed envOk
    ["ocr_legal.py", "input", "--save-prep"] "input" (by decide) rfl rfl
    (by decide) "output/a_preprocessed.png"
  exact ⟨h.1, h.2 true⟩

/-! ## Claim C10 -/

/-- Claim C10: the line statistic counts only non-blank lines — lines that
are empty or whitespace-only are excluded — so for the normalized text
`"a\n\nb"` (which `clean_text` leaves unchanged) the count is 2 even
though the text has 3 lines. -/
theorem line_count_excludes_blank_lines :
    (∀ t : List Char, lineStat t =
      ((splitNl t).filter (fun l => l.any (fun c => !(isPySpace c)))).length) ∧
    clean_text ('a' :: '\n' :: '\n' :: 'b' :: []) =
      'a' :: '\n' :: '\n' :: 'b' :: [] ∧
    lineStat ('a' :: '\n' :: '\n' :: 'b' :: []) = 2 ∧
    (splitNl ('a' :: '\n' :: '\n' :: 'b' :: [])).length = 3 := by
  refine ⟨?_, by decide, by decide, by decide⟩
  intro t
  unfold lineStat
  exact congrArg List.length (List.filter_congr fun l _ => strip_truthy l)

/-! ## Claim C2 -/

/-- Claim C2 counterexample: `clean_text` is not idempotent.  On
`"a\n\t\n\t\n\t\nb"` the first pass strips the tab-only lines to empty
lines AFTER the newline-collapse step already ran, leaving a run of four
newlines, which a second pass collapses further. -/
theorem normalize_idempotence_counterexample :
    clean_text "a\n\t\n\t\n\t\nb".toList = "a\n\n\n\nb".toList ∧
    clean_text (clean_text "a\n\t\n\t\n\t\nb".toList) = "a\n\nb".toList ∧
    clean_text (clean_text "a\n\t\n\t\n\t\nb".toList) ≠
      clean_text "a\n\t\n\t\n\t\nb".toList :=
  ⟨by decide, by decide, by decide⟩

/-- Claim C2 amended: normalization is idempotent only from the second
application on — `clean_text ∘ clean_text` is idempotent:
`clean_text (clean_text (clean_text s)) = clean_text (clean_text s)` for
every string `s`. -/
theorem normalize_twice_is_idempotent (s : List Char) :
    clean_text (clean_text (clean_text s)) = clean_text (clean_text s) := by
  have h2 : clean_text (clean_text s) = collapseNewlines (clean_text s) :=
    clean_text_eq_collapseNewlines _ (chain'_clean_text s)
      (clean_text_linesStripped s) (clean_text_stripFixed s)
  rw [h2]
  exact clean_text_eq_self _
    (chain'_collapseNewlines (fun a hcon => absurd hcon.2 (by decide)) _
      (chain'_clean_text s))
    (linesStripped_collapseNewlines _ (clean_text_linesStripped s))
    (stripped_collapseNewlines _ (clean_text_stripFixed s))
    (collapseNewlines_no_triple _)

/-! ## Claim C4 -/

/-- Claim C4 counterexample (second conjunct): an input run of three or
more newlines does not always leave exactly two newlines in the output.
A boundary run is stripped away entirely, and a run adjacent to a
whitespace-only line merges with it into a three-newline run. -/
theorem whitespace_collapse_counterexample :
    clean_text (List.replicate 3 '\n') = [] ∧
    clean_text "a\n\n\n\t\nb".toList = "a\n\n\nb".toList :=
  ⟨by decide, by decide⟩

/-- Claim C4 amended: the normalized output never contains two adjacent
spaces; and every input run of three or more newlines that is immediately
delimited by non-whitespace characters appears in the normalized output as
exactly two newlines between those characters. -/
theorem whitespace_collapse (s u v : List Char) (x y : Char) (n : Nat)
    (hx : isPySpace x = false) (hy : isPySpace y = false) (hn : 3 ≤ n) :
    (¬ ([' ', ' '] <:+: clean_text s)) ∧
    [x, '\n', '\n', y] <:+:
      clean_text (u ++ x :: (List.replicate n '\n' ++ y :: v)) := by
  constructor
  · intro hinf
    obtain ⟨a, b, he⟩ := hinf
    have hch := chain'_clean_text s
    rw [← he] at hch
    have h1 := List.chain'_append.mp hch
    have h2 := List.chain'_append.mp h1.1
    exact (List.chain'_cons.mp h2.2.1).1 ⟨rfl, rfl⟩
  · exact clean_text_delimited_run u v x y n hx hy hn

/-- Witness for the amended C4 at concrete inputs. -/
theorem whitespace_collapse_witness :
    (¬ ([' ', ' '] <:+: clean_text "q  w".toList)) ∧
    ['a', '\n', '\n', 'b'] <:+:
      clean_text ([] ++ 'a' :: (List.replicate 3 '\n' ++ 'b' :: [])) :=
  whitespace_collapse "q  w".toList [] [] 'a' 'b' 3 (by decide) (by decide)
    (by decide)

/-! ## Claim C5 -/

/-- Claim C5: every line of the normalized output (every segment between
newlines, including the first and last) has no leading or trailing
whitespace, i.e. is fixed by `strip`. -/
theorem every_line_trimmed (s : List Char) :
    ∀ m ∈ splitNl (clean_text s), pyStrip m = m :=
  clean_text_linesStripped s

/-- Witness for C5 at a concrete input with interior padding. -/
theorem every_line_trimmed_witness :
    pyStrip "a b".toList = "a b".toList :=
  every_line_trimmed " a b \n c ".toList "a b".toList (by decide)

end OcrLegal
